import Mathlib

/-!
Verification development for the note-delivery plugin (src/main.js).

The reconciler `syncDirectories` is modelled on a flattened view of a
directory tree: an association list from relative file path to
modification time (`mtimeMs`).  `fs.copyFile` stamps the destination
with the time of the copy, modelled by a `now` parameter.
-/

/-- A directory tree flattened to relative-path / mtime pairs, the view
`getAllFilesRelative` produces (main.js lines 326-344). -/
abbrev FS := List (String × Nat)

/-- `fs.stat` of a relative path in a flattened tree. -/
def fsLookup (fs : FS) (f : String) : Option Nat :=
  (fs.find? (fun p => p.1 == f)).map Prod.snd

/-- Membership test, the model of `Set.has` on an enumerated file set. -/
def fsHas (fs : FS) (f : String) : Bool :=
  (fsLookup fs f).isSome

/-- Writing file `f` with mtime `m` (the effect of `fs.copyFile`). -/
def fsSet (fs : FS) (f : String) (m : Nat) : FS :=
  (f, m) :: fs.filter (fun p => p.1 != f)

/-- Removing file `f` (the effect of `fs.unlink`). -/
def fsDel (fs : FS) (f : String) : FS :=
  fs.filter (fun p => p.1 != f)

/-- The copy decision of main.js lines 284-294: copy when the target
file is absent, or the source mtime strictly exceeds the target mtime. -/
def needsCopy (tgt : FS) (f : String) (srcM : Nat) : Bool :=
  match fsLookup tgt f with
  | none => true
  | some tm => decide (tm < srcM)

/-- One iteration of the copy loop (main.js lines 280-304): the copy
decision is made against the pre-loop target snapshot `tgt0`; a copy
updates the live target state and records the relative path. -/
def copyStep (now : Nat) (tgt0 : FS) (acc : FS × List String)
    (p : String × Nat) : FS × List String :=
  if needsCopy tgt0 p.1 p.2 then (fsSet acc.1 p.1 now, acc.2 ++ [p.1]) else acc

/-- Phase 1 of `syncDirectories`: fold the copy loop over the source
enumeration, starting from the on-disk target and an empty change list. -/
def copyPhase (now : Nat) (src tgt : FS) : FS × List String :=
  src.foldl (copyStep now tgt) (tgt, [])

/-- One iteration of the strict-prune loop (main.js lines 307-319):
delete a target file whose path is absent from the source set. -/
def deleteStep (src : FS) (acc : FS × List String)
    (q : String × Nat) : FS × List String :=
  if fsHas src q.1 then acc else (fsDel acc.1 q.1, acc.2 ++ [q.1])

/-- Phase 2 of `syncDirectories`: fold the delete loop over the
pre-loop target snapshot. -/
def deletePhase (src tgtSnap : FS) (st : FS × List String) : FS × List String :=
  tgtSnap.foldl (deleteStep src) st

/-- `syncDirectories(sourceDir, targetDir, deleteExtra)` of main.js
lines 272-324, restricted to its effect on files: returns the final
target state and the recorded change list.  (The empty-directory
pruning of line 322 acts on directories only and is modelled
separately by `deleteEmptyDirs` below.) -/
def syncDirectories (now : Nat) (src tgt : FS) (deleteExtra : Bool) :
    FS × List String :=
  let afterCopy := copyPhase now src tgt
  if deleteExtra then deletePhase src tgt afterCopy else afterCopy

theorem fsLookup_fsSet_self (fs : FS) (f : String) (m : Nat) :
    fsLookup (fsSet fs f m) f = some m := by
  simp [fsLookup, fsSet, List.find?_cons]

theorem find?_filter_ne (l : FS) (f g : String) (hfg : f ≠ g) :
    (l.filter (fun p => p.1 != g)).find? (fun p => p.1 == f) =
      l.find? (fun p => p.1 == f) := by
  induction l with
  | nil => rfl
  | cons a l ih =>
    by_cases h : a.1 = f
    · have hg : (a.1 != g) = true := by
        simp [bne_iff_ne, h]
        exact hfg
      have hf : (a.1 == f) = true := by simp [h]
      simp [List.filter_cons, hg, List.find?_cons, hf]
    · have hf : (a.1 == f) = false := by simp [h]
      by_cases hg : (a.1 != g) = true
      · simp [List.filter_cons, hg, List.find?_cons, hf, ih]
      · simp at hg
        have hgf : (g == f) = false := by
          simp only [beq_eq_false_iff_ne, ne_eq]
          exact fun hh => hfg hh.symm
        simp [List.filter_cons, hg, List.find?_cons, hgf, ih]

theorem fsLookup_fsSet_ne (fs : FS) (f g : String) (m : Nat) (hfg : f ≠ g) :
    fsLookup (fsSet fs g m) f = fsLookup fs f := by
  have hgf : (g == f) = false := by
    simp only [beq_eq_false_iff_ne, ne_eq]
    exact fun h => hfg h.symm
  simp [fsLookup, fsSet, List.find?_cons, hgf, find?_filter_ne fs f g hfg]

theorem fsLookup_fsDel_ne (fs : FS) (f g : String) (hfg : f ≠ g) :
    fsLookup (fsDel fs g) f = fsLookup fs f := by
  simp [fsLookup, fsDel, find?_filter_ne fs f g hfg]

theorem fsLookup_fsDel_self (fs : FS) (f : String) :
    fsLookup (fsDel fs f) f = none := by
  simp only [fsLookup, fsDel, Option.map_eq_none']
  rw [List.find?_eq_none]
  intro p hp
  have := List.of_mem_filter hp
  simp only [bne_iff_ne, ne_eq, decide_eq_true_eq] at this
  simp [this]

theorem fsLookup_fsDel_none (fs : FS) (f g : String)
    (h : fsLookup fs f = none) : fsLookup (fsDel fs g) f = none := by
  by_cases hfg : f = g
  · subst hfg; exact fsLookup_fsDel_self fs f
  · rw [fsLookup_fsDel_ne fs f g hfg]; exact h

theorem fsHas_of_mem {fs : FS} {f : String} {m : Nat} (h : (f, m) ∈ fs) :
    fsHas fs f = true := by
  simp only [fsHas, fsLookup, Option.isSome_map']
  rw [List.find?_isSome]
  exact ⟨(f, m), h, by simp⟩

theorem fsHas_false_not_mem {fs : FS} {f : String} (h : fsHas fs f = false) :
    ∀ p ∈ fs, p.1 ≠ f := by
  intro p hp hpf
  have hpe : p = (f, p.2) := by
    rw [← hpf]
  have htrue : fsHas fs f = true := fsHas_of_mem (hpe ▸ hp)
  rw [htrue] at h
  exact Bool.noConfusion h

/-- The change list accumulated by the copy loop is the source
enumeration filtered by the copy decision. -/
theorem copyFold_changes (now : Nat) (tgt0 : FS) (src : FS)
    (st : FS × List String) :
    (src.foldl (copyStep now tgt0) st).2 =
      st.2 ++ (src.filter (fun p => needsCopy tgt0 p.1 p.2)).map Prod.fst := by
  induction src generalizing st with
  | nil => simp
  | cons p rest ih =>
    simp only [List.foldl_cons, List.filter_cons]
    by_cases h : needsCopy tgt0 p.1 p.2 = true
    · rw [ih]
      simp [copyStep, h]
    · rw [ih]
      simp [copyStep, h]

/-- The copy loop does not touch a path absent from the source list. -/
theorem copyFold_lookup_not_mem (now : Nat) (tgt0 : FS) (src : FS)
    (st : FS × List String) (f : String) (hf : ∀ p ∈ src, p.1 ≠ f) :
    fsLookup (src.foldl (copyStep now tgt0) st).1 f = fsLookup st.1 f := by
  induction src generalizing st with
  | nil => rfl
  | cons p rest ih =>
    simp only [List.foldl_cons]
    rw [ih _ (fun q hq => hf q (List.mem_cons_of_mem p hq))]
    simp only [copyStep]
    by_cases h : needsCopy tgt0 p.1 p.2 = true
    · simp only [h, if_true]
      exact fsLookup_fsSet_ne st.1 f p.1 now
        (fun hfp => hf p (List.mem_cons_self p rest) hfp.symm)
    · simp [h]

/-- After the copy loop, a source file's target entry is its fresh copy
stamp when the copy decision fired, and the original target entry
otherwise. -/
theorem copyFold_lookup_mem (now : Nat) (tgt0 : FS) (src : FS)
    (st : FS × List String) (f : String) (m : Nat)
    (hnd : (src.map Prod.fst).Nodup) (hmem : (f, m) ∈ src)
    (hst : fsLookup st.1 f = fsLookup tgt0 f) :
    fsLookup (src.foldl (copyStep now tgt0) st).1 f =
      if needsCopy tgt0 f m then some now else fsLookup tgt0 f := by
  induction src generalizing st with
  | nil => cases hmem
  | cons p rest ih =>
    simp only [List.map_cons, List.nodup_cons] at hnd
    rcases List.mem_cons.1 hmem with heq | hrest
    · subst heq
      simp only [List.foldl_cons]
      have hnotin : ∀ q ∈ rest, q.1 ≠ f := by
        intro q hq hqf
        have hfmem : f ∈ List.map Prod.fst rest := by
          rw [← hqf]
          exact List.mem_map_of_mem Prod.fst hq
        exact hnd.1 hfmem
      rw [copyFold_lookup_not_mem now tgt0 rest _ f hnotin]
      simp only [copyStep]
      by_cases h : needsCopy tgt0 f m = true
      · simp only [h, if_true]
        exact fsLookup_fsSet_self st.1 f now
      · simp only [Bool.not_eq_true] at h
        simp only [h, Bool.false_eq_true, if_false]
        exact hst
    · have hpf : p.1 ≠ f := by
        intro hpf
        apply hnd.1
        rw [hpf]
        exact List.mem_map_of_mem Prod.fst hrest
      simp only [List.foldl_cons]
      apply ih _ hnd.2 hrest
      simp only [copyStep]
      by_cases h : needsCopy tgt0 p.1 p.2 = true
      · simp only [h, if_true]
        rw [fsLookup_fsSet_ne st.1 f p.1 now (fun h' => hpf h'.symm)]
        exact hst
      · simp only [Bool.not_eq_true] at h
        simp only [h, Bool.false_eq_true, if_false]
        exact hst

/-- The change list accumulated by the strict-prune loop is the target
snapshot filtered by absence from the source set. -/
theorem deleteFold_changes (src tgtSnap : FS) (st : FS × List String) :
    (tgtSnap.foldl (deleteStep src) st).2 =
      st.2 ++ (tgtSnap.filter (fun q => !(fsHas src q.1))).map Prod.fst := by
  induction tgtSnap generalizing st with
  | nil => simp
  | cons q rest ih =>
    simp only [List.foldl_cons, List.filter_cons]
    by_cases h : fsHas src q.1 = true
    · rw [ih]
      simp [deleteStep, h]
    · simp only [Bool.not_eq_true] at h
      rw [ih]
      simp [deleteStep, h]

/-- The strict-prune loop does not touch a path present in the source set. -/
theorem deleteFold_lookup_has (src tgtSnap : FS) (st : FS × List String)
    (f : String) (hf : fsHas src f = true) :
    fsLookup (tgtSnap.foldl (deleteStep src) st).1 f = fsLookup st.1 f := by
  induction tgtSnap generalizing st with
  | nil => rfl
  | cons q rest ih =>
    simp only [List.foldl_cons]
    rw [ih]
    simp only [deleteStep]
    by_cases h : fsHas src q.1 = true
    · simp [h]
    · simp only [h, Bool.false_eq_true, if_false]
      have hqf : f ≠ q.1 := by
        intro heq
        rw [heq] at hf
        rw [hf] at h
        exact h rfl
      exact fsLookup_fsDel_ne st.1 f q.1 hqf

/-- Once a path is gone from the live target state it stays gone through
the strict-prune loop. -/
theorem deleteFold_lookup_none (src tgtSnap : FS) (st : FS × List String)
    (f : String) (h : fsLookup st.1 f = none) :
    fsLookup (tgtSnap.foldl (deleteStep src) st).1 f = none := by
  induction tgtSnap generalizing st with
  | nil => exact h
  | cons q rest ih =>
    simp only [List.foldl_cons]
    apply ih
    simp only [deleteStep]
    by_cases hq : fsHas src q.1 = true
    · simp [hq, h]
    · simp only [hq, Bool.false_eq_true, if_false]
      exact fsLookup_fsDel_none st.1 f q.1 h

/-- The strict-prune loop removes every snapshot path absent from the
source set. -/
theorem deleteFold_lookup_del (src tgtSnap : FS) (st : FS × List String)
    (f : String) (hf : fsHas src f = false) (hmem : f ∈ tgtSnap.map Prod.fst) :
    fsLookup (tgtSnap.foldl (deleteStep src) st).1 f = none := by
  induction tgtSnap generalizing st with
  | nil => cases hmem
  | cons q rest ih =>
    simp only [List.foldl_cons]
    by_cases hqf : q.1 = f
    · apply deleteFold_lookup_none
      simp only [deleteStep, hqf, hf, Bool.false_eq_true, if_false]
      exact fsLookup_fsDel_self st.1 f
    · have hmem' : f ∈ rest.map Prod.fst := by
        rcases List.mem_map.1 hmem with ⟨p, hp, hpf⟩
        rcases List.mem_cons.1 hp with heq | hrest
        · exact absurd (heq ▸ hpf) hqf
        · exact List.mem_map.2 ⟨p, hrest, hpf⟩
      exact ih _ hmem'

/-- With distinct source paths, a path's mtime entry in the source list
is unique. -/
theorem mem_keys_eq {src : FS} (hnd : (src.map Prod.fst).Nodup)
    {f : String} {m m' : Nat} (h1 : (f, m) ∈ src) (h2 : (f, m') ∈ src) :
    m = m' := by
  induction src with
  | nil => cases h1
  | cons a rest ih =>
    simp only [List.map_cons, List.nodup_cons] at hnd
    rcases List.mem_cons.1 h1 with e1 | r1
    · rcases List.mem_cons.1 h2 with e2 | r2
      · rw [← e1] at e2
        exact (congrArg Prod.snd e2).symm
      · exfalso
        apply hnd.1
        rw [← e1]
        exact List.mem_map.2 ⟨(f, m'), r2, rfl⟩
    · rcases List.mem_cons.1 h2 with e2 | r2
      · exfalso
        apply hnd.1
        rw [← e2]
        exact List.mem_map.2 ⟨(f, m), r1, rfl⟩
      · exact ih hnd.2 r1 r2

/-- Membership of a source path in the filtered-and-projected change
list reduces to the filter predicate at its unique entry. -/
theorem mem_filter_map_fst {src : FS} (P : String × Nat → Bool)
    (hnd : (src.map Prod.fst).Nodup) {f : String} {m : Nat}
    (hmem : (f, m) ∈ src) :
    (f ∈ (src.filter P).map Prod.fst ↔ P (f, m) = true) := by
  constructor
  · intro h
    rcases List.mem_map.1 h with ⟨p, hp, hpf⟩
    have hps := List.mem_filter.1 hp
    have hpe : p = (f, p.2) := by rw [← hpf]
    have : m = p.2 := mem_keys_eq hnd hmem (hpe ▸ hps.1)
    rw [this]
    rw [hpe] at hps
    exact hps.2
  · intro h
    exact List.mem_map.2 ⟨(f, m), List.mem_filter.2 ⟨hmem, h⟩, rfl⟩

/-- The change list of a full reconcile call: copy-phase records in
source order, then (under strict prune) delete-phase records in target
order. -/
theorem sync_changes (now : Nat) (src tgt : FS) (b : Bool) :
    (syncDirectories now src tgt b).2 =
      ((src.filter (fun p => needsCopy tgt p.1 p.2)).map Prod.fst) ++
      (if b then (tgt.filter (fun q => !(fsHas src q.1))).map Prod.fst
       else []) := by
  cases b
  · simp only [syncDirectories, if_false, Bool.false_eq_true]
    rw [copyPhase, copyFold_changes]
    simp
  · simp only [syncDirectories, if_true]
    rw [deletePhase, deleteFold_changes, copyPhase, copyFold_changes]
    simp

/-- The copy decision spelled out: the target file is absent, or has a
strictly smaller mtime. -/
theorem needsCopy_iff (tgt : FS) (f : String) (m : Nat) :
    needsCopy tgt f m = true ↔
      (fsLookup tgt f = none ∨ ∃ tm, fsLookup tgt f = some tm ∧ tm < m) := by
  unfold needsCopy
  cases h : fsLookup tgt f with
  | none => simp [h]
  | some tm =>
    simp only [h, decide_eq_true_eq]
    constructor
    · intro hlt
      exact Or.inr ⟨tm, rfl, hlt⟩
    · rintro (hc | ⟨tm', he, hlt⟩)
      · cases hc
      · cases Option.some.inj he
        exact hlt

/-- A path recorded by the delete phase is absent from the source set. -/
theorem mem_delete_part {src tgt : FS} {f : String}
    (h : f ∈ (tgt.filter (fun q => !(fsHas src q.1))).map Prod.fst) :
    fsHas src f = false := by
  rcases List.mem_map.1 h with ⟨q, hq, hqf⟩
  have hqs := List.mem_filter.1 hq
  rw [← hqf]
  simpa using hqs.2


/-- The on-disk outcome for a source file after a full reconcile call:
its target entry is the fresh copy stamp when the copy decision fired,
and the pre-existing target entry otherwise. -/
theorem sync_lookup_src (now : Nat) (src tgt : FS) (b : Bool)
    (f : String) (m : Nat)
    (hnd : (src.map Prod.fst).Nodup) (hmem : (f, m) ∈ src) :
    fsLookup (syncDirectories now src tgt b).1 f =
      if needsCopy tgt f m then some now else fsLookup tgt f := by
  have hhas : fsHas src f = true := fsHas_of_mem hmem
  have hcopy : fsLookup (copyPhase now src tgt).1 f =
      if needsCopy tgt f m then some now else fsLookup tgt f :=
    copyFold_lookup_mem now tgt src (tgt, []) f m hnd hmem rfl
  cases b
  · simpa only [syncDirectories, Bool.false_eq_true, if_false] using hcopy
  · simp only [syncDirectories, if_true, deletePhase]
    rw [deleteFold_lookup_has src tgt _ f hhas]
    exact hcopy

/-- C1: for every source directory, target directory and strictPrune
flag, `syncDirectories` copies a source-relative file to the
corresponding target path exactly when no file exists yet at that
target path or the source mtime strictly exceeds the target mtime;
equal mtimes perform no copy; and every performed copy is recorded in
the returned change list (a copied file appears in the list and ends up
stamped with the copy time, an uncopied one keeps its target entry). -/
theorem syncDirectories_copies_exactly_when_newer
    (now : Nat) (src tgt : FS) (b : Bool) (f : String) (m : Nat)
    (hnd : (src.map Prod.fst).Nodup) (hmem : (f, m) ∈ src) :
    (f ∈ (syncDirectories now src tgt b).2 ↔
      (fsLookup tgt f = none ∨ ∃ tm, fsLookup tgt f = some tm ∧ tm < m)) ∧
    (fsLookup tgt f = some m → f ∉ (syncDirectories now src tgt b).2) ∧
    ((f ∈ (syncDirectories now src tgt b).2 →
        fsLookup (syncDirectories now src tgt b).1 f = some now) ∧
     (f ∉ (syncDirectories now src tgt b).2 →
        fsLookup (syncDirectories now src tgt b).1 f = fsLookup tgt f)) := by
  have hhas : fsHas src f = true := fsHas_of_mem hmem
  have hch : f ∈ (syncDirectories now src tgt b).2 ↔ needsCopy tgt f m = true := by
    rw [sync_changes]
    constructor
    · intro h
      rcases List.mem_append.1 h with hcopy | hdel
      · exact (mem_filter_map_fst _ hnd hmem).1 hcopy
      · exfalso
        cases b with
        | false => simp at hdel
        | true =>
          simp only [if_true] at hdel
          rw [mem_delete_part hdel] at hhas
          exact Bool.noConfusion hhas
    · intro h
      exact List.mem_append.2 (Or.inl ((mem_filter_map_fst _ hnd hmem).2 h))
  have hlook := sync_lookup_src now src tgt b f m hnd hmem
  refine ⟨hch.trans (needsCopy_iff tgt f m), ?_, ?_, ?_⟩
  · intro heq hin
    have hc := hch.1 hin
    rw [needsCopy, heq] at hc
    simp at hc
  · intro hin
    have hc := hch.1 hin
    rw [hlook, if_pos hc]
  · intro hout
    have hc : needsCopy tgt f m = false := by
      cases hcc : needsCopy tgt f m
      · rfl
      · exact absurd (hch.2 hcc) hout
    rw [hlook, hc]
    simp

/-- Concrete run of the C1 theorem: one source file newer than its
target copy is copied, recorded, and stamped with the copy time. -/
theorem syncDirectories_copies_exactly_when_newer_witness :
    ("a.md" ∈ (syncDirectories 10 [("a.md", 5)] [("a.md", 3)] false).2 ↔
      (fsLookup [("a.md", 3)] "a.md" = none ∨
        ∃ tm, fsLookup [("a.md", 3)] "a.md" = some tm ∧ tm < 5)) ∧
    (fsLookup [("a.md", 3)] "a.md" = some 5 →
      "a.md" ∉ (syncDirectories 10 [("a.md", 5)] [("a.md", 3)] false).2) ∧
    (("a.md" ∈ (syncDirectories 10 [("a.md", 5)] [("a.md", 3)] false).2 →
        fsLookup (syncDirectories 10 [("a.md", 5)] [("a.md", 3)] false).1 "a.md" =
          some 10) ∧
     ("a.md" ∉ (syncDirectories 10 [("a.md", 5)] [("a.md", 3)] false).2 →
        fsLookup (syncDirectories 10 [("a.md", 5)] [("a.md", 3)] false).1 "a.md" =
          fsLookup [("a.md", 3)] "a.md")) :=
  syncDirectories_copies_exactly_when_newer 10 [("a.md", 5)] [("a.md", 3)]
    false "a.md" 5 (by decide) (by decide)

/-- C2: a target file absent from the source set is deleted and
recorded under strictPrune=true, and left untouched on disk under
strictPrune=false. -/
theorem syncDirectories_strict_prune
    (now : Nat) (src tgt : FS) (f : String)
    (hmem : f ∈ tgt.map Prod.fst) (habs : fsHas src f = false) :
    (f ∈ (syncDirectories now src tgt true).2 ∧
      fsLookup (syncDirectories now src tgt true).1 f = none) ∧
    fsLookup (syncDirectories now src tgt false).1 f = fsLookup tgt f := by
  have hnotin : ∀ p ∈ src, p.1 ≠ f := fsHas_false_not_mem habs
  have hcopy : fsLookup (copyPhase now src tgt).1 f = fsLookup tgt f :=
    copyFold_lookup_not_mem now tgt src (tgt, []) f hnotin
  refine ⟨⟨?_, ?_⟩, ?_⟩
  · rw [sync_changes]
    apply List.mem_append.2
    right
    simp only [if_true]
    rcases List.mem_map.1 hmem with ⟨q, hq, hqf⟩
    apply List.mem_map.2
    refine ⟨q, List.mem_filter.2 ⟨hq, ?_⟩, hqf⟩
    rw [hqf, habs]
    rfl
  · simp only [syncDirectories, if_true, deletePhase]
    exact deleteFold_lookup_del src tgt _ f habs hmem
  · simpa only [syncDirectories, Bool.false_eq_true, if_false] using hcopy

/-- Concrete run of the C2 theorem: a target-only file is deleted and
recorded under strict prune, untouched otherwise. -/
theorem syncDirectories_strict_prune_witness :
    ("old.md" ∈ (syncDirectories 10 [("a.md", 5)]
        [("a.md", 3), ("old.md", 7)] true).2 ∧
      fsLookup (syncDirectories 10 [("a.md", 5)]
        [("a.md", 3), ("old.md", 7)] true).1 "old.md" = none) ∧
    fsLookup (syncDirectories 10 [("a.md", 5)]
        [("a.md", 3), ("old.md", 7)] false).1 "old.md" =
      fsLookup [("a.md", 3), ("old.md", 7)] "old.md" :=
  syncDirectories_strict_prune 10 [("a.md", 5)] [("a.md", 3), ("old.md", 7)]
    "old.md" (by decide) (by decide)

/-- A copy fold in which the copy decision never fires leaves the state
and the change list untouched. -/
theorem copyFold_no_change (now : Nat) (tgt0 : FS) (src : FS)
    (st : FS × List String)
    (h : ∀ p ∈ src, needsCopy tgt0 p.1 p.2 = false) :
    src.foldl (copyStep now tgt0) st = st := by
  induction src generalizing st with
  | nil => rfl
  | cons p rest ih =>
    simp only [List.foldl_cons, copyStep,
      h p (List.mem_cons_self p rest), Bool.false_eq_true, if_false]
    exact ih _ (fun q hq => h q (List.mem_cons_of_mem p hq))

/-- C3: reconciling a source tree into an initially empty target with
strictPrune=false, then reconciling the same pair again, produces zero
additional changes on the second pass and leaves the target state
unchanged, provided source mtimes do not postdate the first copy
pass. -/
theorem syncDirectories_idempotent_on_empty_target
    (now1 now2 : Nat) (src : FS)
    (hnd : (src.map Prod.fst).Nodup)
    (hms : ∀ p ∈ src, p.2 ≤ now1) :
    (syncDirectories now2 src (syncDirectories now1 src [] false).1 false).2 =
      [] ∧
    (syncDirectories now2 src (syncDirectories now1 src [] false).1 false).1 =
      (syncDirectories now1 src [] false).1 := by
  have ht1 : ∀ p ∈ src,
      fsLookup (syncDirectories now1 src [] false).1 p.1 = some now1 := by
    intro p hp
    have hpe : p = (p.1, p.2) := rfl
    have := sync_lookup_src now1 src [] false p.1 p.2 hnd (hpe ▸ hp)
    rw [this]
    have : needsCopy [] p.1 p.2 = true := rfl
    rw [if_pos this]
  have hnc : ∀ p ∈ src,
      needsCopy (syncDirectories now1 src [] false).1 p.1 p.2 = false := by
    intro p hp
    rw [needsCopy, ht1 p hp]
    simp only [decide_eq_false_iff_not, not_lt]
    exact hms p hp
  have hfold := copyFold_no_change now2 (syncDirectories now1 src [] false).1
    src ((syncDirectories now1 src [] false).1, []) hnc
  have hsync : syncDirectories now2 src (syncDirectories now1 src [] false).1
      false = ((syncDirectories now1 src [] false).1, []) := hfold
  rw [hsync]
  exact ⟨rfl, rfl⟩

/-- Concrete run of the C3 theorem: a two-file source synced twice into
an initially empty target changes nothing on the second pass. -/
theorem syncDirectories_idempotent_on_empty_target_witness :
    (syncDirectories 9 [("a.md", 3), ("b.md", 5)]
      (syncDirectories 5 [("a.md", 3), ("b.md", 5)] [] false).1 false).2 =
      [] ∧
    (syncDirectories 9 [("a.md", 3), ("b.md", 5)]
      (syncDirectories 5 [("a.md", 3), ("b.md", 5)] [] false).1 false).1 =
      (syncDirectories 5 [("a.md", 3), ("b.md", 5)] [] false).1 :=
  syncDirectories_idempotent_on_empty_target 5 9 [("a.md", 3), ("b.md", 5)]
    (by decide) (by decide)

/-!
Empty-directory pruning (`deleteEmptyDirs`, main.js lines 346-366),
modelled on an explicit directory tree: a directory holds a list of
plain-file names and a list of named subdirectories.
-/

mutual
inductive DirTree : Type where
  | node : List String → Entries → DirTree
inductive Entries : Type where
  | nil : Entries
  | cons : String → DirTree → Entries → Entries
end

/-- A directory listing with zero entries. -/
def Entries.isNil : Entries → Bool
  | .nil => true
  | .cons _ _ _ => false

mutual
/-- `deleteEmptyDirs(directory)`: recurse into every subdirectory
first, then remove the directory itself (result `none`) when its
re-read listing has zero entries. -/
def deleteEmptyDirs : DirTree → Option DirTree
  | .node files subs =>
    let subs' := pruneEntries subs
    if files.isEmpty && subs'.isNil then none else some (.node files subs')
/-- The recursion of `deleteEmptyDirs` over a directory listing: a
subdirectory pruned away disappears from the listing (plain files are
returned early by the `isDirectory` guard and stay). -/
def pruneEntries : Entries → Entries
  | .nil => .nil
  | .cons n d rest =>
    match deleteEmptyDirs d with
    | none => pruneEntries rest
    | some d' => .cons n d' (pruneEntries rest)
end

mutual
/-- All file paths in a tree, relative to its root. -/
def filesOf : DirTree → List String
  | .node files subs => files ++ filesOfE subs
def filesOfE : Entries → List String
  | .nil => []
  | .cons n d rest => (filesOf d).map (fun f => n ++ "/" ++ f) ++ filesOfE rest
end

mutual
/-- The tree and every directory inside it have at least one entry. -/
def nonEmptyTree : DirTree → Bool
  | .node files subs => (!files.isEmpty || !subs.isNil) && nonEmptyE subs
def nonEmptyE : Entries → Bool
  | .nil => true
  | .cons _ d rest => nonEmptyTree d && nonEmptyE rest
end

mutual
/-- `deleteEmptyDirs` removes a directory exactly when its tree holds
no file at all, and otherwise keeps every file while leaving no empty
directory behind. -/
theorem deleteEmptyDirs_sound (t : DirTree) :
    (deleteEmptyDirs t = none ↔ filesOf t = []) ∧
    (∀ t', deleteEmptyDirs t = some t' →
      filesOf t' = filesOf t ∧ nonEmptyTree t' = true) :=
  match t with
  | .node files subs => by
    obtain ⟨hfiles, hne, hnil⟩ := pruneEntries_sound subs
    by_cases h : (files.isEmpty && (pruneEntries subs).isNil) = true
    · have hres : deleteEmptyDirs (.node files subs) = none := by
        rw [deleteEmptyDirs]
        simp only [h, if_true]
      rw [Bool.and_eq_true, List.isEmpty_iff] at h
      constructor
      · rw [hres]
        simp only [true_iff]
        rw [filesOf, h.1, hnil.1 h.2]
        rfl
      · intro t' ht'
        rw [hres] at ht'
        exact Option.noConfusion ht'
    · have hres : deleteEmptyDirs (.node files subs) =
          some (.node files (pruneEntries subs)) := by
        rw [deleteEmptyDirs]
        simp only [h]
        rfl
      constructor
      · rw [hres]
        constructor
        · intro hh
          exact Option.noConfusion hh
        · intro hh
          exfalso
          apply h
          rw [filesOf, List.append_eq_nil] at hh
          rw [Bool.and_eq_true, List.isEmpty_iff]
          exact ⟨hh.1, hnil.2 hh.2⟩
      · intro t' ht'
        rw [hres] at ht'
        cases Option.some.inj ht'
        constructor
        · rw [filesOf, filesOf, hfiles]
        · rw [nonEmptyTree, Bool.and_eq_true]
          refine ⟨?_, hne⟩
          have hab : (files.isEmpty && (pruneEntries subs).isNil) = false := by
            cases hx : (files.isEmpty && (pruneEntries subs).isNil)
            · rfl
            · exact absurd hx h
          rw [← Bool.not_and, hab]
          rfl
/-- The listing-level half of the pruning soundness: files are
preserved, every surviving subdirectory is recursively non-empty, and
the pruned listing is empty exactly when no file lived below it. -/
theorem pruneEntries_sound (es : Entries) :
    filesOfE (pruneEntries es) = filesOfE es ∧
    nonEmptyE (pruneEntries es) = true ∧
    ((pruneEntries es).isNil = true ↔ filesOfE es = []) :=
  match es with
  | .nil => by
    refine ⟨rfl, rfl, ?_⟩
    rw [pruneEntries]
    exact ⟨fun _ => rfl, fun _ => rfl⟩
  | .cons n d rest => by
    obtain ⟨ihf, ihn, ihnil⟩ := pruneEntries_sound rest
    obtain ⟨hiff, hsome⟩ := deleteEmptyDirs_sound d
    cases hd : deleteEmptyDirs d with
    | none =>
      have hdf : filesOf d = [] := hiff.1 hd
      have hprune : pruneEntries (.cons n d rest) = pruneEntries rest := by
        rw [pruneEntries, hd]
      have hfe : filesOfE (.cons n d rest) = filesOfE rest := by
        rw [filesOfE, hdf]
        rfl
      rw [hprune, hfe]
      exact ⟨ihf, ihn, ihnil⟩
    | some d' =>
      obtain ⟨hdf, hdn⟩ := hsome d' hd
      have hprune : pruneEntries (.cons n d rest) =
          .cons n d' (pruneEntries rest) := by
        rw [pruneEntries, hd]
      have hdne : filesOf d ≠ [] := by
        intro hcon
        rw [hiff.2 hcon] at hd
        exact Option.noConfusion hd
      refine ⟨?_, ?_, ?_⟩
      · rw [hprune, filesOfE, filesOfE, hdf, ihf]
      · rw [hprune, nonEmptyE, Bool.and_eq_true]
        exact ⟨hdn, ihn⟩
      · rw [hprune]
        constructor
        · intro hh
          exact Bool.noConfusion hh
        · intro hh
          exfalso
          rw [filesOfE, List.append_eq_nil, List.map_eq_nil_iff] at hh
          exact hdne hh.1
end

/-- C9 counterexample: `syncDirectories` ends every call with
`deleteEmptyDirs(targetDir)` (main.js line 322), and on a target
directory left with zero files — here one holding only an empty
subdirectory — the pruning removes the target directory itself
(result `none`), so the target directory does not survive the pass. -/
theorem deleteEmptyDirs_removes_target_dir_itself :
    deleteEmptyDirs (DirTree.node []
      (Entries.cons "sub" (DirTree.node [] Entries.nil) Entries.nil)) =
      none := by
  rw [deleteEmptyDirs, pruneEntries]
  rw [show deleteEmptyDirs (DirTree.node [] Entries.nil) = none by
    rw [deleteEmptyDirs, pruneEntries]
    rfl]
  rw [pruneEntries]
  rfl

/-- C9 (amended): after the copy and delete phases the reconciler runs
`deleteEmptyDirs` on the target tree whether or not strictPrune is set;
the pruning removes every directory left with zero entries, children
before parents, including the target directory itself when the whole
tree ends up with no files: the call returns `none` exactly in that
case, and otherwise keeps every file path while leaving no directory
with zero entries anywhere in the result. -/
theorem deleteEmptyDirs_prunes_all_empty_dirs (t : DirTree) :
    (deleteEmptyDirs t = none ↔ filesOf t = []) ∧
    (∀ t', deleteEmptyDirs t = some t' →
      filesOf t' = filesOf t ∧ nonEmptyTree t' = true) :=
  deleteEmptyDirs_sound t

/-- Concrete run of the C9 theorem: a target holding one file and one
empty subdirectory keeps the file and loses the empty subdirectory. -/
theorem deleteEmptyDirs_prunes_all_empty_dirs_witness :
    filesOf (DirTree.node ["a.md"] Entries.nil) =
      filesOf (DirTree.node ["a.md"]
        (Entries.cons "sub" (DirTree.node [] Entries.nil) Entries.nil)) ∧
    nonEmptyTree (DirTree.node ["a.md"] Entries.nil) = true :=
  (deleteEmptyDirs_prunes_all_empty_dirs
      (DirTree.node ["a.md"]
        (Entries.cons "sub" (DirTree.node [] Entries.nil) Entries.nil))).2
    (DirTree.node ["a.md"] Entries.nil)
    (by
      rw [deleteEmptyDirs, pruneEntries]
      rw [show deleteEmptyDirs (DirTree.node [] Entries.nil) = none by
        rw [deleteEmptyDirs, pruneEntries]
        rfl]
      rw [pruneEntries]
      rfl)

/-!
Unique numeric id allocation (`generateUniqueNumericId`, main.js lines
242-270).  JS strings are modelled as `List Char`; `String(n)` for an
integer is the canonical decimal rendering `intToDec`.  The registry
`usedIds` is the `.global-ids.json` content after the quote-stripping
read of lines 246-247.
-/

/-- One decimal digit as a character. -/
def digitChar (d : Nat) : Char := Char.ofNat (48 + d)

/-- Decimal digits of a natural number, most significant first; the
fuel argument only bounds the recursion depth. -/
def natToDecAux : Nat → Nat → List Char
  | 0, _ => []
  | fuel + 1, n =>
    if n < 10 then [digitChar n]
    else natToDecAux fuel (n / 10) ++ [digitChar (n % 10)]

/-- JS `String(n)` for a natural number. -/
def natToDec (n : Nat) : List Char := natToDecAux (n + 1) n

/-- JS `String(i)` for an integer. -/
def intToDec (i : Int) : List Char :=
  if i < 0 then '-' :: natToDec i.natAbs else natToDec i.toNat

/-- Value of a decimal digit string, the left inverse used to prove
that `natToDec` is injective. -/
def decVal (l : List Char) : Nat :=
  l.foldl (fun acc c => acc * 10 + (c.toNat - 48)) 0

theorem decVal_append (l : List Char) (c : Char) :
    decVal (l ++ [c]) = decVal l * 10 + (c.toNat - 48) := by
  simp [decVal, List.foldl_append]

theorem digitChar_toNat (d : Nat) (h : d < 10) :
    (digitChar d).toNat = 48 + d := by
  interval_cases d <;> rfl

theorem decVal_natToDecAux (fuel : Nat) :
    ∀ n : Nat, n < 10 ^ fuel → decVal (natToDecAux fuel n) = n := by
  induction fuel with
  | zero =>
    intro n h
    simp only [pow_zero, Nat.lt_one_iff] at h
    subst h
    rfl
  | succ fuel ih =>
    intro n h
    rw [natToDecAux]
    by_cases hn : n < 10
    · simp only [hn, if_true]
      show decVal [digitChar n] = n
      simp [decVal, digitChar_toNat n hn]
    · simp only [hn, if_false]
      have hdiv : n / 10 < 10 ^ fuel := by
        rw [Nat.div_lt_iff_lt_mul (by norm_num)]
        calc n < 10 ^ (fuel + 1) := h
          _ = 10 ^ fuel * 10 := by ring
      rw [decVal_append, ih (n / 10) hdiv,
        digitChar_toNat (n % 10) (Nat.mod_lt n (by omega))]
      omega

theorem natToDec_lt_pow (n : Nat) : n < 10 ^ (n + 1) :=
  lt_of_lt_of_le (Nat.lt_pow_self (by norm_num) n)
    (Nat.pow_le_pow_right (by norm_num) (Nat.le_succ n))

theorem decVal_natToDec (n : Nat) : decVal (natToDec n) = n :=
  decVal_natToDecAux (n + 1) n (natToDec_lt_pow n)

theorem natToDec_inj {a b : Nat} (h : natToDec a = natToDec b) : a = b := by
  have ha := decVal_natToDec a
  have hb := decVal_natToDec b
  rw [h, hb] at ha
  exact ha.symm

theorem digitChar_ne_dash (d : Nat) (h : d < 10) : digitChar d ≠ '-' := by
  interval_cases d <;> decide

theorem natToDecAux_head_ne_dash (fuel : Nat) :
    ∀ (n : Nat) (c : Char) (l : List Char),
      natToDecAux fuel n = c :: l → c ≠ '-' := by
  induction fuel with
  | zero =>
    intro n c l h
    exact absurd h (by simp [natToDecAux])
  | succ fuel ih =>
    intro n c l h
    rw [natToDecAux] at h
    by_cases hn : n < 10
    · simp only [hn, if_true] at h
      cases h
      exact digitChar_ne_dash n hn
    · simp only [hn, if_false] at h
      cases haux : natToDecAux fuel (n / 10) with
      | nil =>
        rw [haux, List.nil_append] at h
        cases h
        exact digitChar_ne_dash (n % 10) (Nat.mod_lt n (by omega))
      | cons c' l' =>
        rw [haux, List.cons_append] at h
        injection h with h1 h2
        rw [← h1]
        exact ih (n / 10) c' l' haux

theorem natToDec_head_ne_dash (n : Nat) (c : Char) (l : List Char)
    (h : natToDec n = c :: l) : c ≠ '-' :=
  natToDecAux_head_ne_dash (n + 1) n c l h

theorem intToDec_inj {a b : Int} (h : intToDec a = intToDec b) : a = b := by
  unfold intToDec at h
  by_cases ha : a < 0 <;> by_cases hb : b < 0
  · simp only [ha, hb, if_true, List.cons.injEq] at h
    have := natToDec_inj h.2
    omega
  · simp only [ha, hb, if_true, if_false] at h
    cases hc : natToDec b.toNat with
    | nil => rw [hc] at h; exact absurd h (by simp)
    | cons c l =>
      rw [hc] at h
      exact absurd (List.head_eq_of_cons_eq h.symm)
        (natToDec_head_ne_dash b.toNat c l hc)
  · simp only [ha, hb, if_true, if_false] at h
    cases hc : natToDec a.toNat with
    | nil => rw [hc] at h; exact absurd h (by simp)
    | cons c l =>
      rw [hc] at h
      exact absurd (List.head_eq_of_cons_eq h)
        (natToDec_head_ne_dash a.toNat c l hc)
  · simp only [ha, hb, if_false] at h
    have := natToDec_inj h
    omega

/-- `List.contains` agrees with membership for a lawful `BEq`. -/
theorem contains_iff_mem {α : Type} [BEq α] [LawfulBEq α] {l : List α} {a : α} :
    l.contains a = true ↔ a ∈ l := List.elem_iff

/-- The scan loop of sequential mode (main.js lines 252-255): step past
ids already in the registry.  The fuel only bounds the loop; the
pigeonhole argument below shows `usedIds.length + 1` steps always
suffice, matching the JS loop that runs until it exits. -/
def findFreeAux (used : List (List Char)) : Nat → Int → Int
  | 0, n => n
  | fuel + 1, n =>
    if used.contains (intToDec n) then findFreeAux used fuel (n + 1) else n

/-- The first integer at or above `start` whose decimal rendering is
not in the registry. -/
def findFree (used : List (List Char)) (start : Int) : Int :=
  findFreeAux used (used.length + 1) start

/-- Pigeonhole: among `used.length + 1` consecutive integers at least
one has a decimal rendering outside `used`. -/
theorem exists_free_in_range (used : List (List Char)) (start : Int) :
    ∃ k : Nat, k ≤ used.length ∧ intToDec (start + k) ∉ used := by
  by_contra hcon
  push_neg at hcon
  have hinj : Function.Injective (fun k : Nat => intToDec (start + k)) := by
    intro k1 k2 hk
    have := intToDec_inj hk
    omega
  have hnd : ((List.range (used.length + 1)).map
      (fun k : Nat => intToDec (start + k))).Nodup :=
    (List.nodup_range _).map hinj
  have hsub : ∀ x ∈ (List.range (used.length + 1)).map
      (fun k : Nat => intToDec (start + k)), x ∈ used := by
    intro x hx
    rcases List.mem_map.1 hx with ⟨k, hk, rfl⟩
    exact hcon k (Nat.lt_succ_iff.1 (List.mem_range.1 hk))
  have h1 := List.toFinset_card_of_nodup hnd
  have h2 : ((List.range (used.length + 1)).map
      (fun k : Nat => intToDec (start + k))).toFinset ⊆ used.toFinset := by
    intro x hx
    exact List.mem_toFinset.2 (hsub x (List.mem_toFinset.1 hx))
  have h3 := List.toFinset_card_le used
  have h4 := Finset.card_le_card h2
  rw [h1] at h4
  simp only [List.length_map, List.length_range] at h4
  omega

theorem findFreeAux_spec (used : List (List Char)) (fuel : Nat) :
    ∀ n : Int, (∃ k : Nat, k < fuel ∧ intToDec (n + k) ∉ used) →
      intToDec (findFreeAux used fuel n) ∉ used ∧ n ≤ findFreeAux used fuel n := by
  induction fuel with
  | zero =>
    intro n h
    obtain ⟨k, hk, _⟩ := h
    omega
  | succ fuel ih =>
    intro n h
    rw [findFreeAux]
    by_cases hn : used.contains (intToDec n) = true
    · simp only [hn, if_true]
      have hmem : intToDec n ∈ used := contains_iff_mem.1 hn
      have h' : ∃ k : Nat, k < fuel ∧ intToDec ((n + 1) + k) ∉ used := by
        obtain ⟨k, hk, hm⟩ := h
        cases k with
        | zero =>
          exfalso
          apply hm
          simpa using hmem
        | succ k =>
          refine ⟨k, by omega, ?_⟩
          have : (n + 1) + (k : Int) = n + ((k + 1 : Nat) : Int) := by
            push_cast
            ring
          rw [this]
          exact hm
      obtain ⟨hf, hle⟩ := ih (n + 1) h'
      exact ⟨hf, by omega⟩
    · simp only [hn, if_false]
      refine ⟨?_, le_refl n⟩
      intro hmem
      exact hn (contains_iff_mem.2 hmem)

/-- Sequential allocation always lands outside the registry. -/
theorem findFree_not_mem (used : List (List Char)) (start : Int) :
    intToDec (findFree used start) ∉ used := by
  obtain ⟨k, hk, hfree⟩ := exists_free_in_range used start
  exact (findFreeAux_spec used (used.length + 1) start
    ⟨k, Nat.lt_succ_of_le hk, hfree⟩).1

/-- Sequential allocation never returns below its start. -/
theorem findFree_ge (used : List (List Char)) (start : Int) :
    start ≤ findFree used start := by
  obtain ⟨k, hk, hfree⟩ := exists_free_in_range used start
  exact (findFreeAux_spec used (used.length + 1) start
    ⟨k, Nat.lt_succ_of_le hk, hfree⟩).2

/-- The in-memory allocator state: the persisted registry (as read back
with quotes stripped) and the `sequentialSlugStart` setting. -/
structure IdState where
  usedIds : List (List Char)
  seqStart : Int

/-- Sequential branch of `generateUniqueNumericId` (main.js lines
251-258 and 266-269): scan upward from `sequentialSlugStart`, skip ids
already in the registry, persist `found + 1` as the new start, append
the rendered id to the registry and return it. -/
def generateSequentialId (st : IdState) : List Char × IdState :=
  let n := findFree st.usedIds st.seqStart
  (intToDec n, ⟨st.usedIds ++ [intToDec n], n + 1⟩)

/-- Random branch of `generateUniqueNumericId` (main.js lines 259-264
and 266-269): draw from the pseudo-random stream until a fresh id
appears; `none` when the modelled finite stream is exhausted (the JS
do/while would keep drawing). -/
def generateRandomId (draws : List Nat) (used : List (List Char)) :
    Option (List Char × List (List Char)) :=
  match draws.find? (fun d => !(used.contains (natToDec d))) with
  | some d => some (natToDec d, used ++ [natToDec d])
  | none => none

/-- The allocator state after `k` sequential calls. -/
def seqStateAfter (st : IdState) : Nat → IdState
  | 0 => st
  | k + 1 => (generateSequentialId (seqStateAfter st k)).2

/-- The integer value of the id returned by sequential call `k`. -/
def seqIdValue (st : IdState) (k : Nat) : Int :=
  findFree (seqStateAfter st k).usedIds (seqStateAfter st k).seqStart

/-- C4: the ID allocator never returns an id already present in the
registry (in sequential mode unconditionally, in random mode whenever
the draw stream yields a result); the returned id is appended to the
persisted registry before the call returns; and the integer values of
the ids returned by successive sequential calls are strictly
increasing, hence non-decreasing across calls. -/
theorem generateUniqueNumericId_fresh_append_monotone
    (st : IdState) (draws : List Nat) (used : List (List Char)) :
    ((generateSequentialId st).1 ∉ st.usedIds ∧
     (generateSequentialId st).2.usedIds =
       st.usedIds ++ [(generateSequentialId st).1]) ∧
    (∀ id used', generateRandomId draws used = some (id, used') →
      id ∉ used ∧ used' = used ++ [id]) ∧
    (∀ k : Nat, seqIdValue st k < seqIdValue st (k + 1)) := by
  refine ⟨⟨findFree_not_mem st.usedIds st.seqStart, rfl⟩, ?_, ?_⟩
  · intro id used' h
    unfold generateRandomId at h
    cases hfind : draws.find? (fun d => !(used.contains (natToDec d))) with
    | none =>
      rw [hfind] at h
      exact Option.noConfusion h
    | some d =>
      rw [hfind] at h
      have hd := List.find?_some hfind
      simp only [Bool.not_eq_true'] at hd
      cases Option.some.inj h
      refine ⟨?_, rfl⟩
      intro hmem
      rw [contains_iff_mem.2 hmem] at hd
      exact Bool.noConfusion hd
  · intro k
    show findFree (seqStateAfter st k).usedIds (seqStateAfter st k).seqStart <
      findFree (seqStateAfter st (k + 1)).usedIds
        (seqStateAfter st (k + 1)).seqStart
    have hstart : (seqStateAfter st (k + 1)).seqStart =
        findFree (seqStateAfter st k).usedIds (seqStateAfter st k).seqStart
          + 1 := rfl
    rw [hstart]
    have hge := findFree_ge (seqStateAfter st (k + 1)).usedIds
      (findFree (seqStateAfter st k).usedIds (seqStateAfter st k).seqStart + 1)
    omega

/-- Concrete run of the C4 theorem: from an empty registry and start 1,
the sequential id is fresh and appended, the random draw 7 is fresh and
appended, and the second sequential call returns a larger id value. -/
theorem generateUniqueNumericId_fresh_append_monotone_witness :
    ((generateSequentialId ⟨[], 1⟩).1 ∉ ([] : List (List Char)) ∧
     (generateSequentialId ⟨[], 1⟩).2.usedIds =
       [] ++ [(generateSequentialId ⟨[], 1⟩).1]) ∧
    (natToDec 7 ∉ ([] : List (List Char)) ∧
      [natToDec 7] = [] ++ [natToDec 7]) ∧
    seqIdValue ⟨[], 1⟩ 0 < seqIdValue ⟨[], 1⟩ 1 :=
  ⟨(generateUniqueNumericId_fresh_append_monotone ⟨[], 1⟩ [7] []).1,
   (generateUniqueNumericId_fresh_append_monotone ⟨[], 1⟩ [7] []).2.1
     (natToDec 7) [natToDec 7] (by rfl),
   (generateUniqueNumericId_fresh_append_monotone ⟨[], 1⟩ [7] []).2.2 0⟩

/-- C8 counterexample: with an empty registry and a configured start of
0, the sequential allocator returns the id "0", not "1" — the code
never clamps a non-positive start to 1. -/
theorem generateSequentialId_start_zero_counterexample :
    (generateSequentialId ⟨[], 0⟩).1 = ['0'] ∧ (['0'] : List Char) ≠ ['1'] := by
  exact ⟨rfl, by decide⟩

/-- C8 (amended): with an empty existing-id set the sequential
allocator still succeeds for every configured start, including zero and
negative values, and the first id issued is the start value itself
(rendered in decimal), with the stored start advanced to start + 1. -/
theorem generateSequentialId_empty_registry (start : Int) :
    (generateSequentialId ⟨[], start⟩).1 = intToDec start ∧
    (generateSequentialId ⟨[], start⟩).2.usedIds = [intToDec start] ∧
    (generateSequentialId ⟨[], start⟩).2.seqStart = start + 1 :=
  ⟨rfl, rfl, rfl⟩

/-!
Change detection (`getFilesToProcess`, main.js lines 181-199) and the
last-process timestamp sidecar.  JS numbers reaching the timestamp
comparison are either integers or NaN (`parseInt` never throws and
yields NaN on unparsable content), modelled by `JSNum`.
-/

/-- A JS number as produced by the timestamp read path. -/
inductive JSNum : Type where
  | nan : JSNum
  | int : Int → JSNum
deriving DecidableEq

/-- `stats.mtimeMs > ts` in JS: every comparison against NaN is false. -/
def jsGtNat (m : Nat) : JSNum → Bool
  | .nan => false
  | .int t => decide ((m : Int) > t)

/-- JS whitespace skipped by `parseInt` (the forms relevant here). -/
def isJsWhitespace (c : Char) : Bool :=
  c == ' ' || c == '\t' || c == '\n' || c == '\r'

/-- Value of the longest leading digit run; `none` when there is no
leading digit (then `parseInt` yields NaN). -/
def digitsVal (l : List Char) : Option Nat :=
  match l.takeWhile Char.isDigit with
  | [] => none
  | ds => some (decVal ds)

/-- JS `parseInt(s, 10)`: skip leading whitespace, accept an optional
sign, parse the longest digit prefix, NaN when no digit follows. -/
def parseIntJS (s : List Char) : JSNum :=
  match s.dropWhile isJsWhitespace with
  | '-' :: rest =>
    match digitsVal rest with
    | some v => .int (-(v : Int))
    | none => .nan
  | '+' :: rest =>
    match digitsVal rest with
    | some v => .int v
    | none => .nan
  | l =>
    match digitsVal l with
    | some v => .int v
    | none => .nan

/-- Reading `.lastProcessTimestamp` (main.js lines 182-186): an absent
file makes `fs.readFile` throw inside the try, leaving the initial 0;
present content goes through `parseInt`, which never throws. -/
def readTimestamp (stored : Option (List Char)) : JSNum :=
  match stored with
  | none => .int 0
  | some s => parseIntJS s

/-- A source `.md` file as the detection pass sees it: name, mtime, and
whether its content already carries a `slug:` line. -/
structure SrcFile : Type where
  name : String
  mtimeMs : Nat
  hasSlug : Bool
deriving DecidableEq

/-- `getFilesToProcess(mdFiles, source)` (main.js lines 181-199):
select the files whose mtime strictly exceeds the stored timestamp or
which lack a slug, then unconditionally overwrite the stored sidecar
with the current time.  Returns the selected names and the newly
persisted sidecar content. -/
def getFilesToProcess (mdFiles : List SrcFile) (stored : Option (List Char))
    (now : Nat) : List String × List Char :=
  let ts := readTimestamp stored
  ((mdFiles.filter (fun f => jsGtNat f.mtimeMs ts || ! f.hasSlug)).map
      (fun f => f.name),
   natToDec now)

/-- C6 counterexample: a first pass that lists `a.md` and `b.md`
persists only the decimal current time — no file list exists — and a
second pass whose current listing lacks `b.md` does not report `b.md`,
although `b.md` was in the previous pass's listing and is absent from
the current one. -/
theorem getFilesToProcess_reports_no_deletions :
    (getFilesToProcess [⟨"a.md", 5, true⟩, ⟨"b.md", 5, true⟩]
        (some ("0".data)) 100).2 = natToDec 100 ∧
    "b.md" ∉ (getFilesToProcess [⟨"a.md", 5, true⟩]
        (some (natToDec 100)) 200).1 := by
  decide

/-- C6 (amended): the change detector keeps no per-source file list and
reports no deletions; its only persisted state is a single last-process
timestamp, unconditionally overwritten with the current time at the end
of every detection pass regardless of whether anything consumes the
result; and a name is reported exactly when a file of the current
listing bears it and its mtime strictly exceeds the stored timestamp or
it lacks a slug line — every reported name comes from the current
listing. -/
theorem getFilesToProcess_characterization (mdFiles : List SrcFile)
    (stored : Option (List Char)) (now : Nat) :
    (getFilesToProcess mdFiles stored now).2 = natToDec now ∧
    (∀ name : String, name ∈ (getFilesToProcess mdFiles stored now).1 ↔
      ∃ f ∈ mdFiles, f.name = name ∧
        (jsGtNat f.mtimeMs (readTimestamp stored) = true ∨
          f.hasSlug = false)) := by
  refine ⟨rfl, ?_⟩
  intro name
  simp only [getFilesToProcess, List.mem_map, List.mem_filter,
    Bool.or_eq_true, Bool.not_eq_true']
  constructor
  · rintro ⟨f, ⟨hf, hp⟩, hn⟩
    exact ⟨f, hf, hn, hp⟩
  · rintro ⟨f, hf, hn, hp⟩
    exact ⟨f, ⟨hf, hp⟩, hn⟩

/-- C7 counterexample: unparsable sidecar content parses to NaN, not 0;
a file with a slug and any mtime is then never selected by the
timestamp criterion, unlike the absent-sidecar case where the same file
is selected — malformed content does not behave like no prior state. -/
theorem readTimestamp_unparsable_not_zero :
    readTimestamp (some ("abc".data)) = JSNum.nan ∧
    JSNum.nan ≠ JSNum.int 0 ∧
    jsGtNat 999 (readTimestamp (some ("abc".data))) = false ∧
    jsGtNat 999 (JSNum.int 0) = true ∧
    (getFilesToProcess [⟨"a.md", 999, true⟩] (some ("abc".data)) 1000).1 =
      [] ∧
    (getFilesToProcess [⟨"a.md", 999, true⟩] none 1000).1 = ["a.md"] := by
  decide

/-- C7 (amended): reading the stored timestamp returns 0 when the
sidecar file is absent and never fails the caller; but content
unparsable as a number yields NaN rather than 0, every modification
time compares false against NaN, and a detection pass under such
content selects exactly the files lacking a slug — not every source
file. -/
theorem readTimestamp_default_behaviour (s : List Char) (m : Nat)
    (files : List SrcFile) (now : Nat) (h : parseIntJS s = JSNum.nan) :
    readTimestamp none = JSNum.int 0 ∧
    readTimestamp (some s) = JSNum.nan ∧
    jsGtNat m (readTimestamp (some s)) = false ∧
    (getFilesToProcess files (some s) now).1 =
      (files.filter (fun f => ! f.hasSlug)).map (fun f => f.name) := by
  have hread : readTimestamp (some s) = JSNum.nan := h
  refine ⟨rfl, hread, by rw [hread]; rfl, ?_⟩
  simp only [getFilesToProcess]
  rw [List.filter_congr]
  intro f hf
  rw [hread]
  rfl

/-- Concrete run of the C7 theorem at unparsable content "abc": the
slug-less file is still selected, the slug-bearing one is not. -/
theorem readTimestamp_default_behaviour_witness :
    readTimestamp none = JSNum.int 0 ∧
    readTimestamp (some ("abc".data)) = JSNum.nan ∧
    jsGtNat 5 (readTimestamp (some ("abc".data))) = false ∧
    (getFilesToProcess [⟨"x.md", 3, false⟩, ⟨"y.md", 3, true⟩]
        (some ("abc".data)) 7).1 =
      (([⟨"x.md", 3, false⟩, ⟨"y.md", 3, true⟩] : List SrcFile).filter
          (fun f => ! f.hasSlug)).map (fun f => f.name) :=
  readTimestamp_default_behaviour ("abc".data) 5
    [⟨"x.md", 3, false⟩, ⟨"y.md", 3, true⟩] 7 (by decide)

/-!
Commit message construction (`createCommitMessage`, main.js lines
168-179).
-/

/-- JS `p.split(/[\\/]/)` as a character-list split on the two path
separators; like the JS split it yields one (possibly empty) segment
more than the number of separators. -/
def splitSeps : List Char → List (List Char)
  | [] => [[]]
  | c :: rest =>
    if c == '/' || c == '\\' then [] :: splitSeps rest
    else
      match splitSeps rest with
      | [] => [[c]]
      | s :: ss => (c :: s) :: ss

/-- `(p || "").split(/[\\/]/).pop()` — the basename extraction of
main.js line 174. -/
def basename (p : String) : String :=
  String.mk ((splitSeps p.data).getLastD [])

/-- `Array.from(new Set(xs))`: deduplication keeping the first
occurrence of each element, in insertion order. -/
def dedupFirst (xs : List String) : List String :=
  xs.foldl (fun acc x => if x ∈ acc then acc else acc ++ [x]) []

/-- `createCommitMessage(changedFiles)` (main.js lines 168-179): the
empty list yields the fixed message; otherwise the first five distinct
basenames are comma-joined, and when more than five distinct basenames
exist a suffix carrying `filenames.length` — the total distinct
count — is appended. -/
def createCommitMessage (changedFiles : List String) : String :=
  if changedFiles.length = 0 then "自动提交"
  else
    "更新文件：" ++
      String.intercalate ", " ((dedupFirst (changedFiles.map basename)).take 5) ++
      (if 5 < (dedupFirst (changedFiles.map basename)).length then
        " 等" ++ String.mk (natToDec (dedupFirst (changedFiles.map basename)).length) ++
          "个文件"
      else "")

theorem dedupFold_mem (xs : List String) :
    ∀ (acc : List String) (x : String),
      x ∈ xs.foldl (fun acc x => if x ∈ acc then acc else acc ++ [x]) acc ↔
        x ∈ acc ∨ x ∈ xs := by
  induction xs with
  | nil => simp
  | cons y rest ih =>
    intro acc x
    simp only [List.foldl_cons]
    rw [ih]
    by_cases hy : y ∈ acc
    · simp only [hy, if_true, List.mem_cons]
      constructor
      · rintro (h | h)
        · exact Or.inl h
        · exact Or.inr (Or.inr h)
      · rintro (h | h | h)
        · exact Or.inl h
        · exact Or.inl (h ▸ hy)
        · exact Or.inr h
    · simp only [hy, if_false, List.mem_append, List.mem_cons,
        List.not_mem_nil, or_false]
      tauto

theorem dedupFold_nodup (xs : List String) :
    ∀ acc : List String, acc.Nodup →
      (xs.foldl (fun acc x => if x ∈ acc then acc else acc ++ [x]) acc).Nodup := by
  induction xs with
  | nil => exact fun acc h => h
  | cons y rest ih =>
    intro acc hacc
    simp only [List.foldl_cons]
    by_cases hy : y ∈ acc
    · simp only [hy, if_true]
      exact ih acc hacc
    · simp only [hy, if_false]
      apply ih
      rw [List.nodup_append]
      exact ⟨hacc, List.nodup_singleton y,
        fun a ha hb => hy ((List.mem_singleton.1 hb) ▸ ha)⟩

theorem dedupFirst_nodup (xs : List String) : (dedupFirst xs).Nodup :=
  dedupFold_nodup xs [] List.nodup_nil

theorem dedupFirst_mem (xs : List String) (x : String) :
    x ∈ dedupFirst xs ↔ x ∈ xs := by
  rw [dedupFirst, dedupFold_mem]
  simp

/-- C5 counterexample: the six paths `posts/a.md` … `posts/f.md`
produce the five basenames plus the suffix 等6个文件 carrying the total
distinct count 6, not the claimed count of omitted basenames (1). -/
theorem createCommitMessage_suffix_counts_total :
    createCommitMessage ["posts/a.md", "posts/b.md", "posts/c.md",
      "posts/d.md", "posts/e.md", "posts/f.md"] =
      "更新文件：a.md, b.md, c.md, d.md, e.md 等6个文件" ∧
    ("更新文件：a.md, b.md, c.md, d.md, e.md 等6个文件" : String) ≠
      "更新文件：a.md, b.md, c.md, d.md, e.md 等1个文件" := by
  constructor
  · decide
  · decide

/-- C5 (amended): for a non-empty change list the message lists the
first five distinct basenames (first occurrences, duplicate-free),
comma-joined, and when more than five distinct basenames exist it
appends a suffix carrying the total number of distinct basenames; with
at most five distinct basenames no suffix is appended. -/
theorem createCommitMessage_first_five_and_total (changedFiles : List String)
    (h : changedFiles ≠ []) :
    ((dedupFirst (changedFiles.map basename)).Nodup ∧
     (∀ x : String, x ∈ dedupFirst (changedFiles.map basename) ↔
        x ∈ changedFiles.map basename)) ∧
    ((dedupFirst (changedFiles.map basename)).length ≤ 5 →
      createCommitMessage changedFiles =
        "更新文件：" ++ String.intercalate ", "
          (dedupFirst (changedFiles.map basename))) ∧
    (5 < (dedupFirst (changedFiles.map basename)).length →
      createCommitMessage changedFiles =
        "更新文件：" ++ String.intercalate ", "
          ((dedupFirst (changedFiles.map basename)).take 5) ++
        " 等" ++ String.mk (natToDec
          (dedupFirst (changedFiles.map basename)).length) ++ "个文件") := by
  have hlen : ¬ changedFiles.length = 0 := by
    intro hc
    exact h (List.length_eq_zero.1 hc)
  refine ⟨⟨dedupFirst_nodup _, fun x => dedupFirst_mem _ x⟩, ?_, ?_⟩
  · intro hle
    rw [createCommitMessage, if_neg hlen]
    have hnot : ¬ 5 < (dedupFirst (changedFiles.map basename)).length := by
      omega
    rw [if_neg hnot, List.take_of_length_le hle]
    simp
  · intro hgt
    rw [createCommitMessage, if_neg hlen, if_pos hgt]
    simp [String.append_assoc]

/-- Concrete run of the C5 theorem on the six-path scenario input. -/
theorem createCommitMessage_first_five_and_total_witness :
    ((dedupFirst (["posts/a.md", "posts/b.md", "posts/c.md", "posts/d.md",
        "posts/e.md", "posts/f.md"].map basename)).Nodup ∧
     (∀ x : String, x ∈ dedupFirst (["posts/a.md", "posts/b.md",
        "posts/c.md", "posts/d.md", "posts/e.md", "posts/f.md"].map basename) ↔
        x ∈ ["posts/a.md", "posts/b.md", "posts/c.md", "posts/d.md",
          "posts/e.md", "posts/f.md"].map basename)) ∧
    ((dedupFirst (["posts/a.md", "posts/b.md", "posts/c.md", "posts/d.md",
        "posts/e.md", "posts/f.md"].map basename)).length ≤ 5 →
      createCommitMessage ["posts/a.md", "posts/b.md", "posts/c.md",
        "posts/d.md", "posts/e.md", "posts/f.md"] =
        "更新文件：" ++ String.intercalate ", "
          (dedupFirst (["posts/a.md", "posts/b.md", "posts/c.md",
            "posts/d.md", "posts/e.md", "posts/f.md"].map basename))) ∧
    (5 < (dedupFirst (["posts/a.md", "posts/b.md", "posts/c.md",
        "posts/d.md", "posts/e.md", "posts/f.md"].map basename)).length →
      createCommitMessage ["posts/a.md", "posts/b.md", "posts/c.md",
        "posts/d.md", "posts/e.md", "posts/f.md"] =
        "更新文件：" ++ String.intercalate ", "
          ((dedupFirst (["posts/a.md", "posts/b.md", "posts/c.md",
            "posts/d.md", "posts/e.md", "posts/f.md"].map basename)).take 5) ++
        " 等" ++ String.mk (natToDec
          (dedupFirst (["posts/a.md", "posts/b.md", "posts/c.md",
            "posts/d.md", "posts/e.md",
            "posts/f.md"].map basename)).length) ++ "个文件") :=
  createCommitMessage_first_five_and_total ["posts/a.md", "posts/b.md",
    "posts/c.md", "posts/d.md", "posts/e.md", "posts/f.md"] (by decide)

/-!
Front-matter slug injection (`addSlugToFile`, main.js lines 214-240),
modelled at the character level.
-/

/-- `hay.indexOf(pat)` as a scan over suffixes, offset by `i`. -/
def indexOfAux (pat : List Char) : List Char → Nat → Option Nat
  | [], i => if pat.isEmpty then some i else none
  | c :: rest, i =>
    if pat.isPrefixOf (c :: rest) then some i
    else indexOfAux pat rest (i + 1)

/-- `hay.indexOf(pat, start)`: search from `start` on. -/
def indexOfFrom (hay pat : List Char) (start : Nat) : Option Nat :=
  (indexOfAux pat (hay.drop start) 0).map (fun i => i + start)

/-- `hay.includes(pat)`. -/
def containsSeq (hay pat : List Char) : Bool :=
  (indexOfAux pat hay 0).isSome

/-- JS index normalization for `slice`: a negative offset counts from
the end of the string, and offsets clamp to the string bounds. -/
def jsIndex (len : Nat) (i : Int) : Nat :=
  if i < 0 then ((len : Int) + i).toNat else min i.toNat len

/-- JS `s.slice(a, b)`. -/
def jsSlice (s : List Char) (a b : Int) : List Char :=
  (s.take (jsIndex s.length b)).drop (jsIndex s.length a)

/-- JS `s.slice(a)`. -/
def jsSliceFrom (s : List Char) (a : Int) : List Char :=
  s.drop (jsIndex s.length a)

/-- `addSlugToFile` (main.js lines 214-240) at the document level: the
already-slugged early return of line 217; the front-matter branch of
lines 228-231, where `indexOf("\n---", 3)` yields -1 when no closing
delimiter line exists and the slices then run against the document
end; and the no-front-matter branch of line 233.  `cleanId` is the
quote-stripped id of line 222; the written value re-adds quotes. -/
def addSlugToFile (content : List Char) (cleanId : List Char) : List Char :=
  if containsSeq content ("\nslug:".data) then content
  else
    if ("---".data).isPrefixOf content then
      jsSlice content 0
          (match indexOfFrom content ("\n---".data) 3 with
            | some i => (i : Int)
            | none => -1) ++
        ("\nslug: ".data ++ ('"' :: (cleanId ++ ['"']))) ++
        jsSliceFrom content
          (match indexOfFrom content ("\n---".data) 3 with
            | some i => (i : Int)
            | none => -1)
    else
      ("---\nslug: ".data ++ ('"' :: (cleanId ++ ['"']))) ++
        ("\n---\n".data ++ content)

/-- C10: for a document that begins with the front-matter open
delimiter, contains no closing delimiter line ("\n---" at or after
index 3) and carries no slug yet, injection splices the slug field
immediately before the final character of the document — the result
is all but the last character, the injected field, then the original
last character — rather than synthesizing or completing a front-matter
block. -/
theorem addSlugToFile_no_close_delimiter (content cleanId : List Char)
    (hs : containsSeq content ("\nslug:".data) = false)
    (hp : ("---".data).isPrefixOf content = true)
    (hn : indexOfFrom content ("\n---".data) 3 = none) :
    addSlugToFile content cleanId =
      content.take (content.length - 1) ++
        ("\nslug: ".data ++ ('"' :: (cleanId ++ ['"']))) ++
        content.drop (content.length - 1) := by
  have hlen : 3 ≤ content.length := by
    have hpre : ("---".data) <+: content := by
      rw [← List.isPrefixOf_iff_prefix]
      exact hp
    obtain ⟨t, ht⟩ := hpre
    rw [← ht]
    simp
  rw [addSlugToFile, if_neg (by rw [hs]; exact Bool.noConfusion),
    if_pos hp, hn]
  have hidx0 : jsIndex content.length 0 = 0 := by
    simp [jsIndex]
  have hidxm1 : jsIndex content.length (-1) = content.length - 1 := by
    simp only [jsIndex, if_pos (by omega : (-1 : Int) < 0)]
    omega
  rw [show jsSlice content 0 (-1) = content.take (content.length - 1) by
    rw [jsSlice, hidx0, hidxm1, List.drop_zero]]
  rw [show jsSliceFrom content (-1) = content.drop (content.length - 1) by
    rw [jsSliceFrom, hidxm1]]

/-- Concrete run of the C10 theorem: a document opening with "---" but
never closing it gets the slug spliced in before its final character. -/
theorem addSlugToFile_no_close_delimiter_witness :
    addSlugToFile ("---\ntitle: hi".data) ['7'] =
      ("---\ntitle: hi".data).take (("---\ntitle: hi".data).length - 1) ++
        ("\nslug: ".data ++ ('"' :: (['7'] ++ ['"']))) ++
        ("---\ntitle: hi".data).drop (("---\ntitle: hi".data).length - 1) :=
  addSlugToFile_no_close_delimiter ("---\ntitle: hi".data) ['7']
    (by decide) (by decide) (by decide)
